import Mathlib

/-!
Verification of `src/Stocks_Risk_Clustering_SP500.py`.

The script computes, per stock symbol, the beta and R² of the stock's
percentage returns against the market index's returns, classifies beta into a
risk tier, assembles the per-symbol records in a table sorted by beta with
NaN rows dropped, selects a Gaussian-mixture order by BIC over 3..12, and
attaches cluster labels and posterior membership probabilities.

Embedding conventions:
* Finite float values are modelled as exact rationals (`ℚ`); IEEE NaN and the
  two infinities are the extra constructors of `FVal`.  Returns, covariances
  and divisions are exact where the script only consumes finiteness and order.
* NumPy semantics that the script relies on are embedded per their documented
  behaviour: `np.cov` is the sample covariance with denominator `n - 1`;
  `np.corrcoef` squared equals `cov² / (var·var)` and is NaN when a variance
  vanishes; comparisons with NaN are false.
* The Gaussian-mixture fit itself (EM on floats) is external library
  behaviour; it is abstracted by a score function `bic : ℕ → ℚ` and by the
  label/posterior functions `labels`/`probs`, while sklearn's pre-fit
  validation `n_samples ≥ n_components` is embedded explicitly.
* The per-symbol dictionaries keyed by symbol are modelled as insertion-order
  lists; this is exact when the input universe has no duplicate symbols.
  Prices are modelled as rationals (finite, and the embedding of
  `pct_change` is exact on series with nonzero prices).
-/

namespace StocksRisk

/-- Idealised IEEE-754 double as the script observes it: NaN, a signed
infinity, or a finite value modelled as an exact rational. -/
inductive FVal where
  | nan : FVal
  | inf (pos : Bool) : FVal
  | fin (q : ℚ) : FVal
deriving DecidableEq

/-- Embedding of `np.isfinite`. -/
def FVal.isFinite : FVal → Bool
  | .fin _ => true
  | _ => false

/-- NaN test (what `dropna` keys on). -/
def FVal.isNan : FVal → Bool
  | .nan => true
  | _ => false

/-- IEEE `<` comparison: every comparison involving NaN is false. -/
def flt : FVal → FVal → Bool
  | .nan, _ => false
  | _, .nan => false
  | .inf a, .inf b => !a && b
  | .inf a, .fin _ => !a
  | .fin _, .inf b => b
  | .fin a, .fin b => decide (a < b)

/-- IEEE division of two finite values: `0/0` is NaN, `a/0` with `a ≠ 0` is a
signed infinity, otherwise the exact quotient. -/
def fdiv (a b : ℚ) : FVal :=
  if b = 0 then (if a = 0 then .nan else .inf (decide (0 < a))) else .fin (a / b)

/-- Mean of a series, as `np` computes it on finite data. -/
def mean (l : List ℚ) : ℚ := l.sum / l.length

/-- Centered cross-product sum `Σ (x i − mean xs) · (y i − mean ys)`, pairing
the two series elementwise. -/
def csum (xs ys : List ℚ) : ℚ :=
  ((xs.zip ys).map (fun p => (p.1 - mean xs) * (p.2 - mean ys))).sum

/-- Sample covariance as computed by `np.cov` (denominator `n − 1`). -/
def sampleCov (xs ys : List ℚ) : ℚ := csum xs ys / ((xs.length : ℚ) - 1)

/-- Embedding of `calculate_beta` (source lines 17–22): on series shorter than
two points it returns NaN sentinels, otherwise `cov(stock, market)` divided by
`var(market)` from the `np.cov` matrix, together with that covariance and
variance. -/
def calculate_beta (stock_returns market_returns : List ℚ) : FVal × FVal × FVal :=
  if stock_returns.length < 2 ∨ market_returns.length < 2 then (.nan, .nan, .nan)
  else
    (fdiv (sampleCov stock_returns market_returns) (sampleCov market_returns market_returns),
     .fin (sampleCov stock_returns market_returns),
     .fin (sampleCov market_returns market_returns))

/-- Embedding of `calculate_r_squared` (source lines 25–31): NaN on short
series; otherwise the square of the Pearson correlation, which on exact
rationals equals `cov² / (var_x · var_y)` and is NaN when either variance
vanishes (0/0 inside `np.corrcoef`). -/
def calculate_r_squared (stock_returns market_returns : List ℚ) : FVal :=
  if stock_returns.length < 2 ∨ market_returns.length < 2 then .nan
  else
    let c01 := sampleCov stock_returns market_returns
    let c00 := sampleCov stock_returns stock_returns
    let c11 := sampleCov market_returns market_returns
    if c00 * c11 = 0 then .nan else .fin (c01 ^ 2 / (c00 * c11))

/-- Modelled from the spec: the classical single-factor regression (OLS) slope
of stock returns on market returns, `Σ(m−m̄)(x−x̄) / Σ(m−m̄)²`. -/
def olsSlope (xs ys : List ℚ) : ℚ := csum xs ys / csum ys ys

/-- Sum of squared residuals of the affine fit `x ≈ a·m + b` over the paired
series, the objective that ordinary least squares minimises. -/
def sse (xs ys : List ℚ) (a b : ℚ) : ℚ :=
  ((xs.zip ys).map (fun p => (p.1 - (a * p.2 + b)) ^ 2)).sum

/-- Embedding of `risk_level` (source lines 63–73): the if/elif chain on the
float comparison `beta < c`. -/
def risk_level (beta : FVal) : String :=
  if flt beta (.fin (1/2)) then ("Very Low Risk")
  else if flt beta (.fin 1) then ("Low Risk")
  else if flt beta (.fin (3/2)) then ("Moderate Risk")
  else if flt beta (.fin 2) then ("High Risk")
  else ("Very High Risk")

/-- Candidate cluster orders, `range(3, 13)` from source line 36. -/
def n_clusters_range : List ℕ := List.range' 3 10

/-- One step of Python's `min(..., key=lambda x: x[1])` left fold: the current
best is replaced only when the new element's key is strictly smaller, so the
first element attaining the minimum wins. -/
def pyMinStep (b y : ℕ × ℚ) : ℕ × ℚ := if y.2 < b.2 then y else b

/-- Sequential effectful map, as the Python `for` loop evaluates the body for
each candidate in order and propagates the first raised exception. -/
def mapE (f : ℕ → Except String (ℕ × ℚ)) : List ℕ → Except String (List (ℕ × ℚ))
  | [] => .ok []
  | k :: t =>
    match f k with
    | .error e => .error e
    | .ok b =>
      match mapE f t with
      | .error e => .error e
      | .ok r => .ok (b :: r)

/-- `GaussianMixture(n_components=k, random_state=42).fit(data); gmm.bic(data)`
abstracted: sklearn's `fit` validates `n_samples ≥ n_components` before any EM
step and raises a `ValueError` otherwise; the BIC of the deterministic fit on
the given data is abstracted as an arbitrary score function `bic`. -/
def gmm_bic (n : ℕ) (bic : ℕ → ℚ) (k : ℕ) : Except String ℚ :=
  if n < k then .error ("Expected n_samples >= n_components") else .ok (bic k)

/-- Embedding of `determine_optimal_clusters` (source lines 34–55) on a data
set of `n` points: collect `(k, bic k)` for `k = 3..12` in order (propagating
the first fit error), then take Python's `min` by the score. -/
def determine_optimal_clusters (n : ℕ) (bic : ℕ → ℚ) : Except String ℕ :=
  match mapE (fun k => (gmm_bic n bic k).map (fun b => (k, b))) n_clusters_range with
  | .error e => .error e
  | .ok [] => .error ("min arg is an empty sequence")
  | .ok (x :: xs) => .ok (xs.foldl pyMinStep x).1

/-- Embedding of `pct_change().dropna()` on a date-indexed price series: the
return at each date after the first is the relative change from the previous
price; the leading undefined entry is dropped.  Exact for nonzero prices. -/
def pct_change (l : List (ℕ × ℚ)) : List (ℕ × ℚ) :=
  match l with
  | [] => []
  | _ :: t => (l.zip t).map (fun p => (p.2.1, (p.2.2 - p.1.2) / p.1.2))

/-- Embedding of `align_data` (source lines 58–60): pandas inner join on the
date index, preserving the left (stock) frame's order; each surviving date
carries the (stock return, market return) pair. -/
def align_data (s m : List (ℕ × ℚ)) : List (ℚ × ℚ) :=
  s.filterMap (fun p => (m.lookup p.1).map (fun y => (p.2, y)))

/-- Python's banker's rounding of a rational to the nearest integer. -/
def round_half_even (q : ℚ) : ℤ :=
  if q - ⌊q⌋ < 1/2 then ⌊q⌋
  else if 1/2 < q - ⌊q⌋ then ⌊q⌋ + 1
  else if ⌊q⌋ % 2 = 0 then ⌊q⌋ else ⌊q⌋ + 1

/-- `round(x, 3)` on a finite value. -/
def round3 (q : ℚ) : ℚ := (round_half_even (1000 * q) : ℚ) / 1000

/-- `round(x, 3)` on a float: NaN and infinities pass through. -/
def roundF3 : FVal → FVal
  | .nan => .nan
  | .inf b => .inf b
  | .fin q => .fin (round3 q)

/-- One row of the `results_df` dictionaries: everything stored for a symbol
that passed the finite-beta filter.  `beta` and `close` are finite by
construction; `r2` is the rounded R², which can still be NaN. -/
structure RiskRecord where
  symbol : String
  name : String
  beta : ℚ
  r2 : FVal
  close : ℚ
deriving DecidableEq

/-- One symbol of the input universe: its CSV row (symbol, display name) and
its fetched date-indexed closing prices. -/
structure StockRow where
  symbol : String
  name : String
  prices : List (ℕ × ℚ)
deriving DecidableEq

/-- The aligned stock-return column for a symbol against given market
returns. -/
def alignedStock (mret : List (ℕ × ℚ)) (s : StockRow) : List ℚ :=
  (align_data (pct_change s.prices) mret).map Prod.fst

/-- The aligned market-return column for a symbol. -/
def alignedIndex (mret : List (ℕ × ℚ)) (s : StockRow) : List ℚ :=
  (align_data (pct_change s.prices) mret).map Prod.snd

/-- Embedding of the body of the per-symbol loop (source lines 96–117): skip
on empty price data, align the return series, skip on an empty alignment,
compute beta, and keep the symbol (with rounded beta, R² and latest close)
exactly when `np.isfinite(beta)`. -/
def processSymbol (mret : List (ℕ × ℚ)) (s : StockRow) : Option RiskRecord :=
  if s.prices.isEmpty then none
  else
    let aligned := align_data (pct_change s.prices) mret
    if aligned.isEmpty then none
    else
      match (calculate_beta (aligned.map Prod.fst) (aligned.map Prod.snd)).1 with
      | .fin b =>
        some
          { symbol := s.symbol
            name := s.name
            beta := round3 b
            r2 := roundF3 (calculate_r_squared (aligned.map Prod.fst) (aligned.map Prod.snd))
            close := round3 ((s.prices.getLastD (0, 0)).2) }
      | _ => none

/-- One iteration of the main loop: append the record and bump
`valid_stocks_count` when the symbol is kept, else leave the state alone. -/
def loopStep (mret : List (ℕ × ℚ)) (acc : List RiskRecord × ℕ) (s : StockRow) :
    List RiskRecord × ℕ :=
  match processSymbol mret s with
  | some r => (acc.1 ++ [r], acc.2 + 1)
  | none => acc

/-- The main accumulation loop (source lines 89–117): the dictionaries keyed
by symbol are modelled as an insertion-order list (exact for duplicate-free
universes) and `valid_stocks_count` as the second component. -/
def loopOut (univ : List StockRow) (mkt : List (ℕ × ℚ)) : List RiskRecord × ℕ :=
  univ.foldl (loopStep (pct_change mkt)) ([], 0)

/-- The records of `results_df` at creation (source lines 119–125), in
dictionary insertion order, i.e. before sorting. -/
def recsOf (univ : List StockRow) (mkt : List (ℕ × ℚ)) : List RiskRecord :=
  (loopOut univ mkt).1

/-- The `valid_stocks_count` reported at the end of the run (source lines
93, 113, 196, 201). -/
def validCount (univ : List StockRow) (mkt : List (ℕ × ℚ)) : ℕ :=
  (loopOut univ mkt).2

/-- Insert an indexed record into a list sorted by ascending beta. -/
def insertRec (x : ℕ × RiskRecord) : List (ℕ × RiskRecord) → List (ℕ × RiskRecord)
  | [] => [x]
  | y :: t => if y.2.beta ≤ x.2.beta then y :: insertRec x t else x :: y :: t

/-- `sort_values(by='Beta')` (source line 125): sort the rows by ascending
beta, each row keeping its original DataFrame index label. -/
def sortRecs : List (ℕ × RiskRecord) → List (ℕ × RiskRecord)
  | [] => []
  | x :: t => insertRec x (sortRecs t)

/-- The final `results_df` (source lines 119–128): rows indexed by their
pre-sort position (the pandas RangeIndex label), sorted by beta, then
`dropna` — in this embedding only the R² field can be NaN. -/
def resultTable (univ : List StockRow) (mkt : List (ℕ × ℚ)) : List (ℕ × RiskRecord) :=
  (sortRecs (recsOf univ mkt).enum).filter (fun p => !p.2.r2.isNan)

/-- One plotted record with its cluster data (source lines 141–175). -/
structure FinalRow where
  origIdx : ℕ
  pos : ℕ
  beta : ℚ
  cluster : ℕ
  attachedProb : ℚ
deriving DecidableEq

/-- Embedding of the cluster columns and the hovertext probability (source
lines 141–175): row `pos` of the post-sort post-drop table gets label
`labels pos` (positional assignment of `fit_predict`'s output), while the
hovertext reads `cluster_probs[cluster_df.index, cluster]`, i.e. indexes the
posterior matrix with the row's original pandas label `origIdx`, not its
position. -/
def assembleRows (labels : ℕ → ℕ) (probs : ℕ → ℕ → ℚ)
    (univ : List StockRow) (mkt : List (ℕ × ℚ)) : List FinalRow :=
  (resultTable univ mkt).enum.map
    (fun q =>
      { origIdx := q.2.1
        pos := q.1
        beta := q.2.2.beta
        cluster := labels q.1
        attachedProb := probs q.2.1 (labels q.1) })

/-! ### Concrete inputs used to exercise the pipeline -/

/-- A three-day market index series with varying returns `[1, 1/2]`. -/
def mktData : List (ℕ × ℚ) := [(0, 1), (1, 2), (2, 3)]

/-- A stock whose returns `[2, 1]` give beta 2 against `mktData`. -/
def stockA : StockRow := { symbol := "A", name := "A Corp", prices := [(0, 1), (1, 3), (2, 6)] }

/-- A stock moving exactly with the market: beta 1. -/
def stockB : StockRow := { symbol := "B", name := "B Corp", prices := [(0, 1), (1, 2), (2, 3)] }

/-- A stock with constant returns `[1, 1]` (prices double each day): its beta
against `mktData` is 0 (finite) but its R² is NaN. -/
def stockC : StockRow := { symbol := "C", name := "C Corp", prices := [(0, 1), (1, 2), (2, 4)] }

/-- A stock with all-identical prices: zero variance, returns `[0, 0]`. -/
def stockD : StockRow := { symbol := "D", name := "D Corp", prices := [(0, 5), (1, 5), (2, 5)] }

/-- The record the loop stores for `stockA`. -/
def recA : RiskRecord := { symbol := "A", name := "A Corp", beta := 2, r2 := .fin 1, close := 6 }

/-- The record the loop stores for `stockB`. -/
def recB : RiskRecord := { symbol := "B", name := "B Corp", beta := 1, r2 := .fin 1, close := 3 }

/-- The record the loop stores for `stockC`: finite beta 0 but NaN R². -/
def recC : RiskRecord := { symbol := "C", name := "C Corp", beta := 0, r2 := .nan, close := 4 }

/-- The record the loop stores for `stockD`: finite beta 0 but NaN R². -/
def recD : RiskRecord := { symbol := "D", name := "D Corp", beta := 0, r2 := .nan, close := 5 }

/-! ### Supporting lemmas -/

/-- On a finite beta the if/elif chain of `risk_level` reduces to plain
rational comparisons against the four thresholds. -/
theorem risk_level_fin (q : ℚ) :
    risk_level (.fin q) =
      if q < 1/2 then ("Very Low Risk")
      else if q < 1 then ("Low Risk")
      else if q < 3/2 then ("Moderate Risk")
      else if q < 2 then ("High Risk")
      else ("Very High Risk") := by
  simp [risk_level, flt]

theorem sum_map_sub_c (L : List (ℚ × ℚ)) (f : ℚ × ℚ → ℚ) (c : ℚ) :
    (L.map (fun p => f p - c)).sum = (L.map f).sum - L.length * c := by
  induction L with
  | nil => simp
  | cons p t ih =>
    simp only [List.map_cons, List.sum_cons, List.length_cons]
    rw [ih]
    push_cast
    ring

theorem zip_self_eq_map (l : List ℚ) : l.zip l = l.map (fun a => (a, a)) := by
  induction l with
  | nil => rfl
  | cons a t ih => simp [ih]

/-- The self cross-product sum is the centered sum of squares. -/
theorem csum_self (l : List ℚ) :
    csum l l = (l.map (fun y => (y - mean l) ^ 2)).sum := by
  unfold csum
  rw [zip_self_eq_map, List.map_map]
  congr 1
  apply List.map_congr_left
  intro y _
  show (y - mean l) * (y - mean l) = (y - mean l) ^ 2
  ring

theorem csum_self_nonneg (l : List ℚ) : 0 ≤ csum l l := by
  rw [csum_self]
  apply List.sum_nonneg
  intro x hx
  obtain ⟨y, _, rfl⟩ := List.mem_map.1 hx
  positivity

/-- Centered first components of the paired series sum to zero. -/
theorem center_fst_sum (xs ys : List ℚ) (hlen : xs.length = ys.length)
    (hne : xs ≠ []) :
    ((xs.zip ys).map (fun p => p.1 - mean xs)).sum = 0 := by
  rw [sum_map_sub_c (xs.zip ys) Prod.fst (mean xs),
    List.map_fst_zip xs ys (le_of_eq hlen), List.length_zip, ← hlen, min_self]
  have hl : ((xs.length : ℚ)) ≠ 0 := by
    have h0 : xs.length ≠ 0 := fun h0 => hne (List.length_eq_zero.1 h0)
    exact_mod_cast h0
  unfold mean
  field_simp

/-- Centered second components of the paired series sum to zero. -/
theorem center_snd_sum (xs ys : List ℚ) (hlen : xs.length = ys.length)
    (hne : xs ≠ []) :
    ((xs.zip ys).map (fun p => p.2 - mean ys)).sum = 0 := by
  rw [sum_map_sub_c (xs.zip ys) Prod.snd (mean ys),
    List.map_snd_zip xs ys (ge_of_eq hlen), List.length_zip, ← hlen, min_self]
  have hl : ((ys.length : ℚ)) ≠ 0 := by
    have h0 : ys.length ≠ 0 := by
      intro h0
      rw [h0] at hlen
      exact hne (List.length_eq_zero.1 hlen)
    exact_mod_cast h0
  unfold mean
  rw [hlen]
  field_simp

/-- Algebraic expansion of the centered squared residual sum. -/
theorem sse_expand (L : List (ℚ × ℚ)) (xb mb a d : ℚ) :
    (L.map (fun p => ((p.1 - xb) - a * (p.2 - mb) - d) ^ 2)).sum
      = (L.map (fun p => (p.1 - xb) ^ 2)).sum
        - 2 * a * (L.map (fun p => (p.1 - xb) * (p.2 - mb))).sum
        + a ^ 2 * (L.map (fun p => (p.2 - mb) ^ 2)).sum
        - 2 * d * (L.map (fun p => p.1 - xb)).sum
        + 2 * a * d * (L.map (fun p => p.2 - mb)).sum
        + L.length * d ^ 2 := by
  induction L with
  | nil => simp
  | cons p t ih =>
    simp only [List.map_cons, List.sum_cons, List.length_cons]
    rw [ih]
    push_cast
    ring

/-- Closed form of the residual sum of squares of any affine fit in terms of
the centered sums. -/
theorem sse_eq (xs ys : List ℚ) (hlen : xs.length = ys.length) (hne : xs ≠ [])
    (a b : ℚ) :
    sse xs ys a b
      = ((xs.zip ys).map (fun p => (p.1 - mean xs) ^ 2)).sum
        - 2 * a * csum xs ys + a ^ 2 * csum ys ys
        + xs.length * (b - mean xs + a * mean ys) ^ 2 := by
  have hpt : sse xs ys a b
      = ((xs.zip ys).map
          (fun p => ((p.1 - mean xs) - a * (p.2 - mean ys)
            - (b - mean xs + a * mean ys)) ^ 2)).sum := by
    unfold sse
    congr 1
    apply List.map_congr_left
    intro p _
    ring
  have hvv : ((xs.zip ys).map (fun p => (p.2 - mean ys) ^ 2)).sum = csum ys ys := by
    rw [csum_self]
    have : (xs.zip ys).map (fun p => (p.2 - mean ys) ^ 2)
        = ((xs.zip ys).map Prod.snd).map (fun y => (y - mean ys) ^ 2) := by
      rw [List.map_map]
      rfl
    rw [this, List.map_snd_zip xs ys (ge_of_eq hlen)]
  have hlz : ((xs.zip ys).length : ℚ) = (xs.length : ℚ) := by
    rw [List.length_zip, ← hlen, min_self]
  rw [hpt, sse_expand, center_fst_sum xs ys hlen hne, center_snd_sum xs ys hlen hne,
    hvv, hlz]
  unfold csum
  ring

/-- The slope `Σ(m−m̄)(x−x̄)/Σ(m−m̄)²` together with the matching intercept
minimises the residual sum of squares over all affine fits. -/
theorem ols_sse_min (xs ys : List ℚ) (hlen : xs.length = ys.length)
    (h2 : 2 ≤ xs.length) (hvy : csum ys ys ≠ 0) (a b : ℚ) :
    sse xs ys (olsSlope xs ys) (mean xs - olsSlope xs ys * mean ys) ≤ sse xs ys a b := by
  have hne : xs ≠ [] := by
    intro h
    rw [h] at h2
    simp at h2
  have hmul : olsSlope xs ys * csum ys ys = csum xs ys := by
    unfold olsSlope
    field_simp
  have h0 : 0 ≤ csum ys ys := csum_self_nonneg ys
  have hn0 : (0 : ℚ) ≤ (xs.length : ℚ) := by positivity
  rw [sse_eq xs ys hlen hne, sse_eq xs ys hlen hne, ← hmul]
  nlinarith [mul_nonneg h0 (sq_nonneg (a - olsSlope xs ys)),
    mul_nonneg hn0 (sq_nonneg (b - mean xs + a * mean ys))]

/-- The fold behind Python's `min` returns its seed or a list element. -/
theorem pyMin_fold_mem (l : List (ℕ × ℚ)) (b : ℕ × ℚ) :
    l.foldl pyMinStep b = b ∨ l.foldl pyMinStep b ∈ l := by
  induction l generalizing b with
  | nil => left; rfl
  | cons y t ih =>
    simp only [List.foldl_cons]
    rcases ih (pyMinStep b y) with h | h
    · rw [h]
      unfold pyMinStep
      split_ifs
      · right; exact List.mem_cons_self y t
      · left; rfl
    · right; exact List.mem_cons_of_mem y h

/-- The fold behind Python's `min` is a lower bound of the seed and of every
list element. -/
theorem pyMin_fold_le (l : List (ℕ × ℚ)) (b : ℕ × ℚ) :
    (l.foldl pyMinStep b).2 ≤ b.2 ∧ ∀ y ∈ l, (l.foldl pyMinStep b).2 ≤ y.2 := by
  induction l generalizing b with
  | nil => exact ⟨le_refl _, by simp⟩
  | cons y t ih =>
    simp only [List.foldl_cons]
    obtain ⟨h1, h2⟩ := ih (pyMinStep b y)
    have hb : (pyMinStep b y).2 ≤ b.2 := by
      unfold pyMinStep
      split_ifs with h
      · exact le_of_lt h
      · exact le_refl _
    have hy : (pyMinStep b y).2 ≤ y.2 := by
      unfold pyMinStep
      split_ifs with h
      · exact le_refl _
      · exact le_of_not_lt h
    refine ⟨le_trans h1 hb, ?_⟩
    intro z hz
    rcases List.mem_cons.1 hz with rfl | hz'
    · exact le_trans h1 hy
    · exact h2 z hz'

/-- First-occurrence property of Python's `min`: the result is the seed, or a
list element that is strictly below the seed and every element before it
(ties keep the earlier element). -/
theorem pyMin_fold_first (l : List (ℕ × ℚ)) (b : ℕ × ℚ) :
    l.foldl pyMinStep b = b ∨
      ∃ l1 r l2, l = l1 ++ r :: l2 ∧ l.foldl pyMinStep b = r ∧ r.2 < b.2 ∧
        ∀ x ∈ l1, r.2 < x.2 := by
  induction l generalizing b with
  | nil => left; rfl
  | cons y t ih =>
    simp only [List.foldl_cons]
    by_cases hy : y.2 < b.2
    · have hstep : pyMinStep b y = y := by unfold pyMinStep; rw [if_pos hy]
      rw [hstep]
      rcases ih y with h | ⟨l1, r, l2, heq, hres, hlt, hall⟩
      · right; exact ⟨[], y, t, rfl, h, hy, by simp⟩
      · right
        refine ⟨y :: l1, r, l2, by rw [heq, List.cons_append], hres, lt_trans hlt hy, ?_⟩
        intro x hx
        rcases List.mem_cons.1 hx with rfl | hx'
        · exact hlt
        · exact hall x hx'
    · have hstep : pyMinStep b y = b := by unfold pyMinStep; rw [if_neg hy]
      rw [hstep]
      rcases ih b with h | ⟨l1, r, l2, heq, hres, hlt, hall⟩
      · left; exact h
      · right
        refine ⟨y :: l1, r, l2, by rw [heq, List.cons_append], hres, hlt, ?_⟩
        intro x hx
        rcases List.mem_cons.1 hx with rfl | hx'
        · exact lt_of_lt_of_le hlt (le_of_not_lt hy)
        · exact hall x hx'

/-- When no iteration raises, the candidate loop returns all scored pairs. -/
theorem mapE_ok (f : ℕ → Except String (ℕ × ℚ)) (g : ℕ → ℕ × ℚ) (l : List ℕ)
    (h : ∀ k ∈ l, f k = .ok (g k)) : mapE f l = .ok (l.map g) := by
  induction l with
  | nil => rfl
  | cons k t ih =>
    unfold mapE
    rw [h k (List.mem_cons_self k t), ih (fun j hj => h j (List.mem_cons_of_mem k hj))]
    rfl

/-- Membership in the candidate range is exactly `3 ≤ j ≤ 12`. -/
theorem mem_n_clusters_range (j : ℕ) : j ∈ n_clusters_range ↔ 3 ≤ j ∧ j ≤ 12 := by
  rw [show n_clusters_range = [3, 4, 5, 6, 7, 8, 9, 10, 11, 12] from rfl]
  simp only [List.mem_cons, List.not_mem_nil, or_false]
  omega

/-! ### Claim theorems -/

/-- Claim C1: on aligned series of equal length at least two with nonzero
market-return sample variance, the computed beta is exactly the sample
covariance over the sample variance (both with denominator `n − 1`), this
ratio equals the classical OLS slope `Σ(m−m̄)(x−x̄)/Σ(m−m̄)²` (the `n − 1`
factors cancel), and that slope (with its matching intercept) minimises the
residual sum of squares of stock returns regressed on market returns. -/
theorem calculate_beta_is_ols (xs ys : List ℚ) (hlen : xs.length = ys.length)
    (h2 : 2 ≤ xs.length) (hv : sampleCov ys ys ≠ 0) :
    (calculate_beta xs ys).1 = .fin (sampleCov xs ys / sampleCov ys ys) ∧
      sampleCov xs ys / sampleCov ys ys = olsSlope xs ys ∧
      ∀ a b : ℚ,
        sse xs ys (olsSlope xs ys) (mean xs - olsSlope xs ys * mean ys) ≤
          sse xs ys a b := by
  have hcond : ¬(xs.length < 2 ∨ ys.length < 2) := by omega
  have hden : ((ys.length : ℚ) - 1) ≠ 0 := by
    have : (2 : ℚ) ≤ (ys.length : ℚ) := by exact_mod_cast hlen ▸ h2
    intro hc
    rw [sub_eq_zero] at hc
    rw [hc] at this
    norm_num at this
  have hvy : csum ys ys ≠ 0 := by
    intro hc
    apply hv
    unfold sampleCov
    rw [hc, zero_div]
  have hratio : sampleCov xs ys / sampleCov ys ys = olsSlope xs ys := by
    unfold sampleCov olsSlope
    rw [hlen]
    field_simp
  refine ⟨?_, hratio, ols_sse_min xs ys hlen h2 hvy⟩
  unfold calculate_beta
  rw [if_neg hcond]
  unfold fdiv
  rw [if_neg hv]

/-- Witness for C1 at `xs = [1, 2, 4]`, `ys = [1, 2, 3]`. -/
theorem calculate_beta_is_ols_witness :
    (([1, 2, 4] : List ℚ).length = ([1, 2, 3] : List ℚ).length ∧
        2 ≤ ([1, 2, 4] : List ℚ).length ∧
        sampleCov ([1, 2, 3] : List ℚ) [1, 2, 3] ≠ 0) ∧
      ((calculate_beta [1, 2, 4] [1, 2, 3]).1 =
          .fin (sampleCov [1, 2, 4] [1, 2, 3] / sampleCov [1, 2, 3] [1, 2, 3]) ∧
        sampleCov ([1, 2, 4] : List ℚ) [1, 2, 3] / sampleCov [1, 2, 3] [1, 2, 3] =
          olsSlope [1, 2, 4] [1, 2, 3] ∧
        ∀ a b : ℚ,
          sse [1, 2, 4] [1, 2, 3] (olsSlope [1, 2, 4] [1, 2, 3])
              (mean [1, 2, 4] - olsSlope [1, 2, 4] [1, 2, 3] * mean [1, 2, 3]) ≤
            sse [1, 2, 4] [1, 2, 3] a b) := by
  have hv : sampleCov ([1, 2, 3] : List ℚ) [1, 2, 3] ≠ 0 := by
    norm_num [sampleCov, csum, mean]
  exact ⟨⟨rfl, by norm_num, hv⟩,
    calculate_beta_is_ols [1, 2, 4] [1, 2, 3] rfl (by norm_num) hv⟩

/-- Claim C2: for every finite beta, the classifier maps beta to exactly one
of five tiers by half-open intervals: `(−∞,0.5) ↦ Very Low`,
`[0.5,1) ↦ Low`, `[1,1.5) ↦ Moderate`, `[1.5,2) ↦ High`, `[2,∞) ↦ Very
High`; in particular `beta = 0.5` gives Low and `beta = 2` gives Very High. -/
theorem risk_level_tiers (q : ℚ) :
    (risk_level (.fin q) = "Very Low Risk" ↔ q < 1/2) ∧
    (risk_level (.fin q) = "Low Risk" ↔ 1/2 ≤ q ∧ q < 1) ∧
    (risk_level (.fin q) = "Moderate Risk" ↔ 1 ≤ q ∧ q < 3/2) ∧
    (risk_level (.fin q) = "High Risk" ↔ 3/2 ≤ q ∧ q < 2) ∧
    (risk_level (.fin q) = "Very High Risk" ↔ 2 ≤ q) ∧
    risk_level (.fin (1/2)) = "Low Risk" ∧
    risk_level (.fin 2) = "Very High Risk" := by
  have hhalf : risk_level (.fin (1/2 : ℚ)) = "Low Risk" := by
    rw [risk_level_fin]; norm_num
  have htwo : risk_level (.fin (2 : ℚ)) = "Very High Risk" := by
    rw [risk_level_fin]; norm_num
  rw [risk_level_fin]
  split_ifs with h1 h2 h3 h4 <;>
    refine ⟨?_, ?_, ?_, ?_, ?_, hhalf, htwo⟩ <;>
    constructor <;>
    intro h <;>
    first
      | rfl
      | linarith
      | (exact absurd h (by decide))
      | (constructor <;> linarith)

/-- Claim C8: whenever either return series has fewer than two points, the
estimator returns NaN sentinels for beta (and its covariance and variance
debug outputs) and for R², and raises no exception (both functions are
total). -/
theorem short_series_nan (xs ys : List ℚ) (h : xs.length < 2 ∨ ys.length < 2) :
    calculate_beta xs ys = (.nan, .nan, .nan) ∧ calculate_r_squared xs ys = .nan := by
  constructor
  · unfold calculate_beta
    rw [if_pos h]
  · unfold calculate_r_squared
    rw [if_pos h]

/-- Witness for C8 at `xs = [3]`, `ys = [1, 2]`. -/
theorem short_series_nan_witness :
    (([3] : List ℚ).length < 2 ∨ ([1, 2] : List ℚ).length < 2) ∧
      (calculate_beta [3] [1, 2] = (.nan, .nan, .nan) ∧
        calculate_r_squared [3] [1, 2] = .nan) :=
  ⟨by decide, short_series_nan [3] [1, 2] (by decide)⟩

/-- Claim C10: the risk-tier function is total over all float inputs: every
value gets one of the five tiers, and a NaN beta falls through every
threshold comparison (each is false) to the Very High Risk tier. -/
theorem risk_level_total :
    risk_level .nan = "Very High Risk" ∧
      ∀ v : FVal, risk_level v = "Very Low Risk" ∨ risk_level v = "Low Risk" ∨
        risk_level v = "Moderate Risk" ∨ risk_level v = "High Risk" ∨
        risk_level v = "Very High Risk" := by
  refine ⟨rfl, ?_⟩
  intro v
  unfold risk_level
  split_ifs <;> simp

/-- Claim C5: on a feature matrix with fewer points than the smallest
candidate order (`n < 3`), the selector stops with the insufficient-data
error from the very first candidate's pre-fit validation, and the outcome is
independent of every fitted score (no mixture model is fitted). -/
theorem determine_optimal_clusters_insufficient (n : ℕ) (bic : ℕ → ℚ) (h : n < 3) :
    determine_optimal_clusters n bic = .error ("Expected n_samples >= n_components") ∧
      ∀ bic2 : ℕ → ℚ,
        determine_optimal_clusters n bic = determine_optimal_clusters n bic2 := by
  have key : ∀ b : ℕ → ℚ,
      determine_optimal_clusters n b = .error ("Expected n_samples >= n_components") := by
    intro b
    have hr : n_clusters_range = 3 :: [4, 5, 6, 7, 8, 9, 10, 11, 12] := rfl
    unfold determine_optimal_clusters
    rw [hr]
    unfold mapE
    simp [gmm_bic, if_pos h, Except.map]
  exact ⟨key bic, fun bic2 => (key bic).trans (key bic2).symm⟩

/-- Claim C3: on data with at least 12 points (so every candidate fit is
admissible), the selector scores every order `k` in 3..12 and returns a `k`
whose score is minimal among all candidates; on ties it returns the smallest
such `k`. -/
theorem determine_optimal_clusters_argmin (n : ℕ) (bic : ℕ → ℚ) (hn : 12 ≤ n) :
    ∃ k, determine_optimal_clusters n bic = .ok k ∧ 3 ≤ k ∧ k ≤ 12 ∧
      (∀ j, 3 ≤ j → j ≤ 12 → bic k ≤ bic j) ∧
      (∀ j, 3 ≤ j → j ≤ 12 → bic j ≤ bic k → k ≤ j) := by
  have hok : mapE (fun k => (gmm_bic n bic k).map (fun b => (k, b))) n_clusters_range
      = .ok (n_clusters_range.map (fun k => (k, bic k))) := by
    apply mapE_ok
    intro k hk
    have hk12 : 3 ≤ k ∧ k ≤ 12 := (mem_n_clusters_range k).1 hk
    unfold gmm_bic
    rw [if_neg (by omega)]
    rfl
  have hbics : n_clusters_range.map (fun k => (k, bic k))
      = ((3 : ℕ), bic 3) :: ([4, 5, 6, 7, 8, 9, 10, 11, 12].map (fun k => (k, bic k))) := rfl
  set hd : ℕ × ℚ := ((3 : ℕ), bic 3) with hhd
  set tl : List (ℕ × ℚ) := [4, 5, 6, 7, 8, 9, 10, 11, 12].map (fun k => (k, bic k)) with htl
  set r : ℕ × ℚ := tl.foldl pyMinStep hd with hrdef
  have hdet : determine_optimal_clusters n bic = .ok r.1 := by
    unfold determine_optimal_clusters
    rw [hok, hbics]
  have hmemall : ∀ j, 3 ≤ j → j ≤ 12 → (j, bic j) ∈ hd :: tl := by
    intro j h3 h12
    rw [← hbics]
    exact List.mem_map.2 ⟨j, (mem_n_clusters_range j).2 ⟨h3, h12⟩, rfl⟩
  have hrmem : r ∈ hd :: tl := by
    rcases pyMin_fold_mem tl hd with h | h
    · rw [hrdef, h]; exact List.mem_cons_self hd tl
    · exact List.mem_cons_of_mem hd h
  obtain ⟨j0, hj0, hrj0⟩ := List.mem_map.1 (hbics ▸ hrmem)
  have hj0r : 3 ≤ j0 ∧ j0 ≤ 12 := (mem_n_clusters_range j0).1 hj0
  have hr1 : r.1 = j0 := by rw [← hrj0]
  have hr2 : r.2 = bic j0 := by rw [← hrj0]
  have hle := pyMin_fold_le tl hd
  have hmin : ∀ j, 3 ≤ j → j ≤ 12 → r.2 ≤ bic j := by
    intro j h3 h12
    rcases List.mem_cons.1 (hmemall j h3 h12) with hsh | hin
    · have hbj : bic j = hd.2 := by rw [← hsh]
      rw [hbj]
      exact hle.1
    · exact hle.2 (j, bic j) hin
  have hpw : (hd :: tl).Pairwise (fun a b : ℕ × ℚ => a.1 < b.1) := by
    rw [← hbics, List.pairwise_map]
    rw [show n_clusters_range = [3, 4, 5, 6, 7, 8, 9, 10, 11, 12] from rfl]
    exact List.Pairwise.imp (fun h => h)
      (by decide : ([3, 4, 5, 6, 7, 8, 9, 10, 11, 12] : List ℕ).Pairwise (· < ·))
  refine ⟨r.1, hdet, by omega, by omega, ?_, ?_⟩
  · intro j h3 h12
    rw [hr1, ← hr2]
    exact hmin j h3 h12
  · intro j h3 h12 htie
    rcases pyMin_fold_first tl hd with hcase | ⟨l1, rr, l2, heq, hres, hlt, hall⟩
    · have hrhd : r = hd := hcase
      rw [hrhd]
      have h31 : hd.1 = 3 := rfl
      omega
    · have hrrr : r = rr := hres
      have he : bic r.1 = rr.2 := by rw [hr1, ← hr2, hrrr]
      rcases List.mem_cons.1 (hmemall j h3 h12) with hsh | hin
      · exfalso
        have hbj : bic j = hd.2 := by rw [← hsh]
        rw [he, hbj] at htie
        linarith
      · rw [heq] at hin
        rcases List.mem_append.1 hin with hin1 | hin2
        · exfalso
          have hc : rr.2 < bic j := hall (j, bic j) hin1
          rw [he] at htie
          linarith
        · rcases List.mem_cons.1 hin2 with hjr | hin3
          · have hj : j = rr.1 := by rw [← hjr]
            rw [hrrr]
            omega
          · have hpw2 : (rr :: l2).Pairwise (fun a b : ℕ × ℚ => a.1 < b.1) := by
              have h1 := List.Pairwise.of_cons hpw
              rw [heq] at h1
              exact (List.pairwise_append.1 h1).2.1
            have hlt2 : rr.1 < j := (List.pairwise_cons.1 hpw2).1 (j, bic j) hin3
            rw [hrrr]
            omega

/-- Witness for C3 at `n = 12` with the identity score, which selects `k = 3`. -/
theorem determine_optimal_clusters_argmin_witness :
    12 ≤ 12 ∧
      ∃ k, determine_optimal_clusters 12 (fun j => (j : ℚ)) = .ok k ∧ 3 ≤ k ∧ k ≤ 12 ∧
        (∀ j : ℕ, 3 ≤ j → j ≤ 12 → ((k : ℚ)) ≤ (j : ℚ)) ∧
        (∀ j : ℕ, 3 ≤ j → j ≤ 12 → ((j : ℚ)) ≤ (k : ℚ) → k ≤ j) :=
  ⟨le_refl 12, determine_optimal_clusters_argmin 12 (fun j => (j : ℚ)) (le_refl 12)⟩

/-- Witness for C5 at `n = 2`. -/
theorem determine_optimal_clusters_insufficient_witness :
    2 < 3 ∧
      determine_optimal_clusters 2 (fun _ => (0 : ℚ)) =
        .error ("Expected n_samples >= n_components") :=
  ⟨by decide, (determine_optimal_clusters_insufficient 2 (fun _ => (0 : ℚ)) (by decide)).1⟩

/-! ### Sorting and counting lemmas for the assembler -/

theorem mem_insertRec (x z : ℕ × RiskRecord) (l : List (ℕ × RiskRecord)) :
    z ∈ insertRec x l → z = x ∨ z ∈ l := by
  induction l with
  | nil =>
    intro h
    simp only [insertRec, List.mem_singleton] at h
    exact Or.inl h
  | cons y t ih =>
    intro h
    unfold insertRec at h
    split_ifs at h with hc
    · rcases List.mem_cons.1 h with rfl | h'
      · exact Or.inr (List.mem_cons_self _ _)
      · rcases ih h' with h'' | h''
        · exact Or.inl h''
        · exact Or.inr (List.mem_cons_of_mem _ h'')
    · rcases List.mem_cons.1 h with rfl | h'
      · exact Or.inl rfl
      · exact Or.inr h'

theorem sorted_insertRec (x : ℕ × RiskRecord) (l : List (ℕ × RiskRecord))
    (h : l.Pairwise (fun a b => a.2.beta ≤ b.2.beta)) :
    (insertRec x l).Pairwise (fun a b => a.2.beta ≤ b.2.beta) := by
  induction l with
  | nil => simp [insertRec]
  | cons y t ih =>
    rcases List.pairwise_cons.1 h with ⟨hy, ht⟩
    unfold insertRec
    split_ifs with hc
    · refine List.pairwise_cons.2 ⟨?_, ih ht⟩
      intro z hz
      rcases mem_insertRec x z t hz with rfl | hz'
      · exact hc
      · exact hy z hz'
    · refine List.pairwise_cons.2 ⟨?_, h⟩
      intro z hz
      rcases List.mem_cons.1 hz with rfl | hz'
      · exact le_of_not_le hc
      · exact le_trans (le_of_not_le hc) (hy z hz')

theorem sorted_sortRecs (l : List (ℕ × RiskRecord)) :
    (sortRecs l).Pairwise (fun a b => a.2.beta ≤ b.2.beta) := by
  induction l with
  | nil => simp [sortRecs]
  | cons x t ih => exact sorted_insertRec x (sortRecs t) ih

theorem length_insertRec (x : ℕ × RiskRecord) (l : List (ℕ × RiskRecord)) :
    (insertRec x l).length = l.length + 1 := by
  induction l with
  | nil => rfl
  | cons y t ih =>
    unfold insertRec
    split_ifs
    · simp [ih]
    · simp

theorem length_sortRecs (l : List (ℕ × RiskRecord)) :
    (sortRecs l).length = l.length := by
  induction l with
  | nil => rfl
  | cons x t ih =>
    unfold sortRecs
    rw [length_insertRec, ih, List.length_cons]

/-- The loop's counter always equals the number of accumulated records. -/
theorem loopStep_count (mret : List (ℕ × ℚ)) (univ : List StockRow) :
    ∀ acc : List RiskRecord × ℕ, acc.2 = acc.1.length →
      (univ.foldl (loopStep mret) acc).2 = (univ.foldl (loopStep mret) acc).1.length := by
  induction univ with
  | nil => intro acc h; exact h
  | cons s t ih =>
    intro acc h
    simp only [List.foldl_cons]
    apply ih
    unfold loopStep
    cases processSymbol mret s with
    | some r => simp [h]
    | none => exact h

/-- Claim C9 (confirmed): the final table's rows are ordered by beta
ascending, and no surviving row has a NaN in any field (in this embedding the
only NaN-able field is the rounded R²). -/
theorem resultTable_sorted_no_nan (univ : List StockRow) (mkt : List (ℕ × ℚ)) :
    (resultTable univ mkt).Pairwise (fun a b => a.2.beta ≤ b.2.beta) ∧
      ∀ p ∈ resultTable univ mkt, p.2.r2.isNan = false := by
  constructor
  · exact (sorted_sortRecs (recsOf univ mkt).enum).filter _
  · intro p hp
    have h := List.of_mem_filter hp
    simpa using h

/-- Claim C4 (amended): `valid_count` equals the number of records assembled
before the NaN drop, and the final table can only be smaller.  The
duplicate-free hypothesis marks the domain on which the dictionary-based
source and this list-based embedding agree. -/
theorem validCount_counts_pre_drop (univ : List StockRow) (mkt : List (ℕ × ℚ))
    (hnd : (univ.map StockRow.symbol).Nodup) :
    validCount univ mkt = (recsOf univ mkt).length ∧
      (resultTable univ mkt).length ≤ validCount univ mkt := by
  have hcount : validCount univ mkt = (recsOf univ mkt).length := by
    unfold validCount recsOf loopOut
    exact loopStep_count (pct_change mkt) univ ([], 0) rfl
  refine ⟨hcount, ?_⟩
  rw [hcount]
  calc (resultTable univ mkt).length
      ≤ (sortRecs (recsOf univ mkt).enum).length := List.length_filter_le _ _
    _ = (recsOf univ mkt).enum.length := length_sortRecs _
    _ = (recsOf univ mkt).length := List.enum_length

/-! ### Evaluation lemmas on the concrete inputs -/

theorem round_half_even_int (z : ℤ) : round_half_even ((z : ℚ)) = z := by
  unfold round_half_even
  rw [Int.floor_intCast]
  norm_num

theorem round3_int (z : ℤ) : round3 ((z : ℚ)) = ((z : ℚ)) := by
  unfold round3
  rw [show (1000 : ℚ) * (z : ℚ) = ((1000 * z : ℤ) : ℚ) by push_cast; ring,
    round_half_even_int]
  push_cast
  ring

theorem round3_zero : round3 0 = 0 := by
  have h := round3_int 0
  norm_num at h
  exact h

theorem round3_one : round3 1 = 1 := by
  have h := round3_int 1
  norm_num at h
  exact h

theorem round3_two : round3 2 = 2 := by
  have h := round3_int 2
  norm_num at h
  exact h

theorem round3_three : round3 3 = 3 := by
  have h := round3_int 3
  norm_num at h
  exact h

theorem round3_four : round3 4 = 4 := by
  have h := round3_int 4
  norm_num at h
  exact h

theorem round3_five : round3 5 = 5 := by
  have h := round3_int 5
  norm_num at h
  exact h

theorem round3_six : round3 6 = 6 := by
  have h := round3_int 6
  norm_num at h
  exact h

theorem mret_eval : pct_change mktData = [(1, 1), (2, 1/2)] := by
  norm_num [pct_change, mktData, List.zip]

theorem sretA : pct_change stockA.prices = [(1, 2), (2, 1)] := by
  norm_num [pct_change, stockA, List.zip]

theorem sretB : pct_change stockB.prices = [(1, 1), (2, 1/2)] := by
  norm_num [pct_change, stockB, List.zip]

theorem sretC : pct_change stockC.prices = [(1, 1), (2, 1)] := by
  norm_num [pct_change, stockC, List.zip]

theorem sretD : pct_change stockD.prices = [(1, 0), (2, 0)] := by
  norm_num [pct_change, stockD, List.zip]

theorem alignA : align_data (pct_change stockA.prices) [(1, 1), (2, 1/2)]
    = [(2, 1), (1, 1/2)] := by
  rw [sretA]
  norm_num [align_data, List.lookup, List.filterMap,
    show ((1 : ℕ) == 1) = true from rfl, show ((2 : ℕ) == 1) = false from rfl,
    show ((2 : ℕ) == 2) = true from rfl]

theorem alignB : align_data (pct_change stockB.prices) [(1, 1), (2, 1/2)]
    = [(1, 1), (1/2, 1/2)] := by
  rw [sretB]
  norm_num [align_data, List.lookup, List.filterMap,
    show ((1 : ℕ) == 1) = true from rfl, show ((2 : ℕ) == 1) = false from rfl,
    show ((2 : ℕ) == 2) = true from rfl]

theorem alignC : align_data (pct_change stockC.prices) [(1, 1), (2, 1/2)]
    = [(1, 1), (1, 1/2)] := by
  rw [sretC]
  norm_num [align_data, List.lookup, List.filterMap,
    show ((1 : ℕ) == 1) = true from rfl, show ((2 : ℕ) == 1) = false from rfl,
    show ((2 : ℕ) == 2) = true from rfl]

theorem alignD : align_data (pct_change stockD.prices) [(1, 1), (2, 1/2)]
    = [(0, 1), (0, 1/2)] := by
  rw [sretD]
  norm_num [align_data, List.lookup, List.filterMap,
    show ((1 : ℕ) == 1) = true from rfl, show ((2 : ℕ) == 1) = false from rfl,
    show ((2 : ℕ) == 2) = true from rfl]

theorem betaA : (calculate_beta [2, 1] [1, 1/2]).1 = FVal.fin 2 := by
  have hc01 : sampleCov [2, 1] [1, 1/2] = 1/4 := by
    norm_num [sampleCov, csum, mean, List.zip]
  have hc11 : sampleCov [1, 1/2] [1, 1/2] = 1/8 := by
    norm_num [sampleCov, csum, mean, List.zip]
  unfold calculate_beta
  rw [if_neg (by norm_num)]
  show fdiv (sampleCov [2, 1] [1, 1/2]) (sampleCov [1, 1/2] [1, 1/2]) = FVal.fin 2
  rw [hc01, hc11]
  norm_num [fdiv]

theorem r2A : calculate_r_squared [2, 1] [1, 1/2] = FVal.fin 1 := by
  have hc01 : sampleCov [2, 1] [1, 1/2] = 1/4 := by
    norm_num [sampleCov, csum, mean, List.zip]
  have hc00 : sampleCov ([2, 1] : List ℚ) [2, 1] = 1/2 := by
    norm_num [sampleCov, csum, mean, List.zip]
  have hc11 : sampleCov ([1, 1/2] : List ℚ) [1, 1/2] = 1/8 := by
    norm_num [sampleCov, csum, mean, List.zip]
  unfold calculate_r_squared
  rw [if_neg (by norm_num)]
  simp only [hc01, hc00, hc11]
  norm_num

theorem betaB : (calculate_beta [1, 1/2] [1, 1/2]).1 = FVal.fin 1 := by
  have hc11 : sampleCov ([1, 1/2] : List ℚ) [1, 1/2] = 1/8 := by
    norm_num [sampleCov, csum, mean, List.zip]
  unfold calculate_beta
  rw [if_neg (by norm_num)]
  show fdiv (sampleCov [1, 1/2] [1, 1/2]) (sampleCov [1, 1/2] [1, 1/2]) = FVal.fin 1
  rw [hc11]
  norm_num [fdiv]

theorem r2B : calculate_r_squared [1, 1/2] [1, 1/2] = FVal.fin 1 := by
  have hc11 : sampleCov ([1, 1/2] : List ℚ) [1, 1/2] = 1/8 := by
    norm_num [sampleCov, csum, mean, List.zip]
  unfold calculate_r_squared
  rw [if_neg (by norm_num)]
  simp only [hc11]
  norm_num

theorem betaC : (calculate_beta [1, 1] [1, 1/2]).1 = FVal.fin 0 := by
  have hc01 : sampleCov [1, 1] [1, 1/2] = 0 := by
    norm_num [sampleCov, csum, mean, List.zip]
  have hc11 : sampleCov ([1, 1/2] : List ℚ) [1, 1/2] = 1/8 := by
    norm_num [sampleCov, csum, mean, List.zip]
  unfold calculate_beta
  rw [if_neg (by norm_num)]
  show fdiv (sampleCov [1, 1] [1, 1/2]) (sampleCov [1, 1/2] [1, 1/2]) = FVal.fin 0
  rw [hc01, hc11]
  norm_num [fdiv]

theorem r2C : calculate_r_squared [1, 1] [1, 1/2] = FVal.nan := by
  have hc00 : sampleCov ([1, 1] : List ℚ) [1, 1] = 0 := by
    norm_num [sampleCov, csum, mean, List.zip]
  unfold calculate_r_squared
  rw [if_neg (by norm_num)]
  simp only [hc00]
  norm_num

theorem betaD : (calculate_beta [0, 0] [1, 1/2]).1 = FVal.fin 0 := by
  have hc01 : sampleCov [0, 0] [1, 1/2] = 0 := by
    norm_num [sampleCov, csum, mean, List.zip]
  have hc11 : sampleCov ([1, 1/2] : List ℚ) [1, 1/2] = 1/8 := by
    norm_num [sampleCov, csum, mean, List.zip]
  unfold calculate_beta
  rw [if_neg (by norm_num)]
  show fdiv (sampleCov [0, 0] [1, 1/2]) (sampleCov [1, 1/2] [1, 1/2]) = FVal.fin 0
  rw [hc01, hc11]
  norm_num [fdiv]

theorem r2D : calculate_r_squared [0, 0] [1, 1/2] = FVal.nan := by
  have hc00 : sampleCov ([0, 0] : List ℚ) [0, 0] = 0 := by
    norm_num [sampleCov, csum, mean, List.zip]
  unfold calculate_r_squared
  rw [if_neg (by norm_num)]
  simp only [hc00]
  norm_num

theorem processSymbol_stockA :
    processSymbol [(1, 1), (2, 1/2)] stockA = some recA := by
  simp only [processSymbol, alignA]
  norm_num [stockA, recA, betaA, r2A, roundF3, round3_two, round3_one, round3_six]

theorem processSymbol_stockB :
    processSymbol [(1, 1), (2, 1/2)] stockB = some recB := by
  simp only [processSymbol, alignB]
  norm_num [stockB, recB, betaB, r2B, roundF3, round3_one, round3_three]

theorem processSymbol_stockC :
    processSymbol [(1, 1), (2, 1/2)] stockC = some recC := by
  simp only [processSymbol, alignC]
  norm_num [stockC, recC, betaC, r2C, roundF3, round3_zero, round3_four]

theorem processSymbol_stockD :
    processSymbol [(1, 1), (2, 1/2)] stockD = some recD := by
  simp only [processSymbol, alignD]
  norm_num [stockD, recD, betaD, r2D, roundF3, round3_zero, round3_five]

theorem recsOf_stockC : recsOf [stockC] mktData = [recC] := by
  unfold recsOf loopOut
  rw [mret_eval]
  simp only [List.foldl_cons, List.foldl_nil, loopStep, processSymbol_stockC]
  rfl

theorem validCount_stockC : validCount [stockC] mktData = 1 := by
  unfold validCount loopOut
  rw [mret_eval]
  simp only [List.foldl_cons, List.foldl_nil, loopStep, processSymbol_stockC]

theorem resultTable_stockC : resultTable [stockC] mktData = [] := by
  unfold resultTable
  rw [recsOf_stockC]
  simp [List.enum, List.enumFrom, sortRecs, insertRec, recC, FVal.isNan]

theorem recsOf_stockD : recsOf [stockD] mktData = [recD] := by
  unfold recsOf loopOut
  rw [mret_eval]
  simp only [List.foldl_cons, List.foldl_nil, loopStep, processSymbol_stockD]
  rfl

theorem validCount_stockD : validCount [stockD] mktData = 1 := by
  unfold validCount loopOut
  rw [mret_eval]
  simp only [List.foldl_cons, List.foldl_nil, loopStep, processSymbol_stockD]

theorem resultTable_stockD : resultTable [stockD] mktData = [] := by
  unfold resultTable
  rw [recsOf_stockD]
  simp [List.enum, List.enumFrom, sortRecs, insertRec, recD, FVal.isNan]

theorem recsOf_AB : recsOf [stockA, stockB] mktData = [recA, recB] := by
  unfold recsOf loopOut
  rw [mret_eval]
  simp only [List.foldl_cons, List.foldl_nil, loopStep, processSymbol_stockA,
    processSymbol_stockB]
  rfl

/-- Sorting swaps the two rows: `recB` (beta 1) comes before `recA` (beta 2),
and the pandas index labels 1 and 0 travel with the rows. -/
theorem resultTable_AB :
    resultTable [stockA, stockB] mktData = [(1, recB), (0, recA)] := by
  unfold resultTable
  rw [recsOf_AB]
  have hins : insertRec (0, recA) [(1, recB)] = [(1, recB), (0, recA)] := by
    unfold insertRec
    rw [if_pos (by norm_num [recA, recB])]
    rfl
  simp only [List.enum, List.enumFrom, sortRecs, insertRec, hins]
  simp [recA, recB, FVal.isNan]

/-- Claim C4 (counterexample): for the one-stock universe `[stockC]` (constant
stock returns, varying market) the reported `valid_count` is 1 while the
final table after the NaN drop holds 0 records — the count does not equal the
number of retained records. -/
theorem validCount_mismatch :
    validCount [stockC] mktData = 1 ∧ (resultTable [stockC] mktData).length = 0 ∧
      validCount [stockC] mktData ≠ (resultTable [stockC] mktData).length := by
  refine ⟨validCount_stockC, ?_, ?_⟩
  · rw [resultTable_stockC]
    rfl
  · rw [validCount_stockC, resultTable_stockC]
    simp

/-- Witness for the amended C4 on the duplicate-free universe `[stockA,
stockB]`. -/
theorem validCount_counts_pre_drop_witness :
    (([stockA, stockB].map StockRow.symbol).Nodup) ∧
      (validCount [stockA, stockB] mktData = (recsOf [stockA, stockB] mktData).length ∧
        (resultTable [stockA, stockB] mktData).length ≤ validCount [stockA, stockB] mktData) := by
  have hnd : ([stockA, stockB].map StockRow.symbol).Nodup := by
    simp [stockA, stockB]
  exact ⟨hnd, validCount_counts_pre_drop [stockA, stockB] mktData hnd⟩

/-- Claim C6 (code bug): the hovertext reads the posterior matrix at the
row's original pandas index label, not at its position in the sorted,
NaN-dropped table.  On `[stockA, stockB]` the sort swaps the two rows, so the
attached probabilities are `[3/10, 7/10]` although `probs[i, labels[i]]` for
the table rows is `[7/10, 3/10]`. -/
theorem cluster_prob_misindexed :
    assembleRows (fun _ => 0) (fun i _ => if i = 0 then (7 : ℚ)/10 else 3/10)
        [stockA, stockB] mktData
      = [{ origIdx := 1, pos := 0, beta := 1, cluster := 0, attachedProb := 3/10 },
         { origIdx := 0, pos := 1, beta := 2, cluster := 0, attachedProb := 7/10 }] ∧
      ¬ ∀ row ∈ assembleRows (fun _ => 0) (fun i _ => if i = 0 then (7 : ℚ)/10 else 3/10)
          [stockA, stockB] mktData,
        row.attachedProb
          = (fun i (_ : ℕ) => if i = 0 then (7 : ℚ)/10 else 3/10) row.pos row.cluster := by
  have heval : assembleRows (fun _ => 0) (fun i _ => if i = 0 then (7 : ℚ)/10 else 3/10)
      [stockA, stockB] mktData
      = [{ origIdx := 1, pos := 0, beta := 1, cluster := 0, attachedProb := 3/10 },
         { origIdx := 0, pos := 1, beta := 2, cluster := 0, attachedProb := 7/10 }] := by
    unfold assembleRows
    rw [resultTable_AB]
    norm_num [List.enum, List.enumFrom, recA, recB]
  refine ⟨heval, ?_⟩
  intro hall
  have hmem : ({ origIdx := 1, pos := 0, beta := 1, cluster := 0, attachedProb := 3/10 }
      : FinalRow) ∈ assembleRows (fun _ => 0)
        (fun i _ => if i = 0 then (7 : ℚ)/10 else 3/10) [stockA, stockB] mktData := by
    rw [heval]
    exact List.mem_cons_self _ _
  have hrow := hall _ hmem
  norm_num at hrow

/-- Claim C7 (amended): a symbol enters the record set only when its computed
beta is finite (and then its stored beta is that value rounded), and a
non-finite beta always leads to the symbol being skipped with no default
stored. -/
theorem included_iff_finite_beta (mret : List (ℕ × ℚ)) (s : StockRow) :
    (∀ r, processSymbol mret s = some r →
      ∃ q, (calculate_beta (alignedStock mret s) (alignedIndex mret s)).1 = FVal.fin q ∧
        r.beta = round3 q) ∧
    ((calculate_beta (alignedStock mret s) (alignedIndex mret s)).1.isFinite = false →
      processSymbol mret s = none) := by
  unfold alignedStock alignedIndex
  constructor
  · intro r hr
    simp only [processSymbol] at hr
    by_cases h1 : s.prices.isEmpty = true
    · rw [if_pos h1] at hr
      exact absurd hr (by simp)
    · rw [if_neg h1] at hr
      by_cases h2 : (align_data (pct_change s.prices) mret).isEmpty = true
      · rw [if_pos h2] at hr
        exact absurd hr (by simp)
      · rw [if_neg h2] at hr
        rcases hcb : (calculate_beta ((align_data (pct_change s.prices) mret).map Prod.fst)
            ((align_data (pct_change s.prices) mret).map Prod.snd)).1 with _ | b | q
        · rw [hcb] at hr
          exact absurd hr (by simp)
        · rw [hcb] at hr
          exact absurd hr (by simp)
        · rw [hcb] at hr
          simp only [Option.some.injEq] at hr
          exact ⟨q, rfl, by rw [← hr]⟩
  · intro hfin
    simp only [processSymbol]
    by_cases h1 : s.prices.isEmpty = true
    · rw [if_pos h1]
    · rw [if_neg h1]
      by_cases h2 : (align_data (pct_change s.prices) mret).isEmpty = true
      · rw [if_pos h2]
      · rw [if_neg h2]
        rcases hcb : (calculate_beta ((align_data (pct_change s.prices) mret).map Prod.fst)
            ((align_data (pct_change s.prices) mret).map Prod.snd)).1 with _ | b | q
        · rfl
        · rfl
        · rw [hcb] at hfin
          simp [FVal.isFinite] at hfin

/-- Claim C7 (counterexample): the all-identical-price stock `stockD` has
computed beta `0`, which is finite — it is stored (with beta 0) and counted
as valid, and only the NaN R² drop keeps it out of the final table. -/
theorem zero_variance_beta_finite :
    (calculate_beta (alignedStock (pct_change mktData) stockD)
        (alignedIndex (pct_change mktData) stockD)).1 = FVal.fin 0 ∧
      processSymbol (pct_change mktData) stockD = some recD ∧
      recD.beta = 0 ∧
      validCount [stockD] mktData = 1 ∧
      resultTable [stockD] mktData = [] := by
  have hps : processSymbol (pct_change mktData) stockD = some recD := by
    rw [mret_eval]
    exact processSymbol_stockD
  have hcb : (calculate_beta (alignedStock (pct_change mktData) stockD)
      (alignedIndex (pct_change mktData) stockD)).1 = FVal.fin 0 := by
    unfold alignedStock alignedIndex
    rw [mret_eval, alignD]
    simp only [List.map_cons, List.map_nil]
    exact betaD
  exact ⟨hcb, hps, rfl, validCount_stockD, resultTable_stockD⟩

/-- Witness for the amended C7 at `stockA`. -/
theorem included_iff_finite_beta_witness :
    ∃ q, (calculate_beta (alignedStock (pct_change mktData) stockA)
        (alignedIndex (pct_change mktData) stockA)).1 = FVal.fin q ∧
      recA.beta = round3 q := by
  apply (included_iff_finite_beta (pct_change mktData) stockA).1 recA
  rw [mret_eval]
  exact processSymbol_stockA

end StocksRisk
